import Mathlib

/-!
Verification of the annot library (annotation rendering: arrows, vertical
pipes and multi-line labels placed under columns of a text line).

The definitions below are a shallow embedding of the Go source
(`annot.go`, `error.go`).  Go machine integers are modelled as `Int`
(column arithmetic can go negative and is significant), row indices and
lengths as `Nat`.  Mutation of the annotation structs is modelled by
explicit state passing: functions return the updated annotation list.
`strings.Repeat` panics on a negative count and slice indexing panics out
of range; both panics are modelled by `Option` (`none` = panic).
-/

/-- Display width of a label line.  The Go source computes
`uniseg.StringWidth`; for the ASCII strings appearing in every claim the
grapheme-cluster width equals the character count, which is what we use. -/
def displayWidth (s : String) : Nat := s.length

/-- Mirror of the Go struct `line`: cached display width and the
leading-space count of a label line (mutable in Go, hence carried in
state). -/
structure Line where
  length : Nat
  leadingSpaces : Int
deriving DecidableEq, Repr

/-- Mirror of the Go struct `Annot`: caller-supplied `Col` and `Lines`
plus the internal mutable fields `row`, `lines` and `pipeLeadingSpaces`. -/
structure Annot where
  Col : Int
  Lines : List String
  row : Nat
  lines : List Line
  pipeLeadingSpaces : List Int
deriving DecidableEq, Repr

/-- Caller-visible constructor: a fresh `&Annot{Col: c, Lines: ls}` with
zero values for the internal fields. -/
def mkAnnot (c : Int) (ls : List String) : Annot :=
  ⟨c, ls, 0, [], []⟩

/-- Mirror of the Go `section` enumeration.  `noAnnot` is represented by
`none` in the return type of `closestAnnot`. -/
inductive SectionKind where
  | above
  | linesFirstTwo
  | linesAfterSecond
  | trailingSpaceLines
deriving DecidableEq, Repr

/-- Replace the element at an index, identity when out of range (the Go
code only writes in range; see the classification invariants). -/
def modifyIdx (l : List α) (i : Nat) (f : α → α) : List α :=
  match l, i with
  | [], _ => []
  | x :: xs, 0 => f x :: xs
  | x :: xs, n + 1 => x :: modifyIdx xs n f

/-- Mirror of Go `closestAnnot`: scan the right annotations in ascending
column order and return the first one active at `row` together with its
index and section; `none` plays the role of `(nil, noAnnot)`. -/
def closestAnnotAux (row : Nat) (t : Nat) (idx : Nat) :
    List Annot → Option (Annot × Nat × SectionKind)
  | [] => none
  | a :: rest =>
    if row < a.row then some (a, idx, .above)
    else if a.row ≤ row ∧ row < a.row + a.lines.length ∧ row < 2 then
      some (a, idx, .linesFirstTwo)
    else if 2 ≤ row ∧ row < a.row + a.lines.length then
      some (a, idx, .linesAfterSecond)
    else if a.row + a.lines.length ≤ row ∧ row < a.row + a.lines.length + t then
      some (a, idx, .trailingSpaceLines)
    else closestAnnotAux row t (idx + 1) rest

/-- Mirror of Go `closestAnnot(row, rightAnnots, trailingVerticalSpaceLinesCount)`. -/
def closestAnnot (row : Nat) (rightAnnots : List Annot) (t : Nat) :
    Option (Annot × Nat × SectionKind) :=
  closestAnnotAux row t 0 rightAnnots

/-- Write a vertical-pipe leading-space slot of the annotation at list
index `k` (Go: `rightA.pipeLeadingSpaces[i] = v`). -/
def setPipeAt (rights : List Annot) (k : Nat) (i : Nat) (v : Int) : List Annot :=
  modifyIdx rights k fun n => { n with pipeLeadingSpaces := n.pipeLeadingSpaces.set i v }

/-- Write a label-line leading-space slot of the annotation at list index
`k` (Go: `rightA.lines[i].leadingSpaces = v`). -/
def setLineAt (rights : List Annot) (k : Nat) (i : Nat) (v : Int) : List Annot :=
  modifyIdx rights k fun n =>
    { n with lines := modifyIdx n.lines i fun ln => { ln with leadingSpaces := v } }

/-- Mirror of Go `setSpace`: fix the gap on the row above a candidate row
so that a vertical pipe can be drawn for the annotation being placed. -/
def setSpace (rowBefore : Nat) (a : Annot) (rights : List Annot) : List Annot :=
  match closestAnnot rowBefore rights 0 with
  | some (rightA, k, .above) =>
      setPipeAt rights k rowBefore (rightA.Col - a.Col - 1)
  | some (rightA, k, .linesFirstTwo) =>
      setLineAt rights k (rowBefore - rightA.row) (rightA.Col - a.Col - 1)
  | some (rightA, k, .linesAfterSecond) =>
      setLineAt rights k (rowBefore - rightA.row) (rightA.Col - a.Col - 1)
  | _ => rights

/-- Width of label line `aLineIdx` of `a` as read by the Go code
(`a.lines[aLineIdx].length`; in-range whenever the caller loops over
`a.lines`). -/
def lineWidthAt (a : Annot) (aLineIdx : Nat) : Nat :=
  ((a.lines.get? aLineIdx).map Line.length).getD 0

/-- Mirror of Go `checkLineAndSetSpace`: decide whether label line
`aLineIdx` of `a` fits at candidate row `row` and record the required
leading spaces.  Returns the fit flag together with the updated `a` and
right-annotation list. -/
def checkLineAndSetSpace (row aLineIdx : Nat) (a : Annot) (rights : List Annot) :
    Bool × Annot × List Annot :=
  let rowPlusLineIdx := row + aLineIdx
  match closestAnnot rowPlusLineIdx rights 1 with
  | none => (true, a, rights)
  | some (closestA, k, s) =>
    let lineLength : Int := 3 + lineWidthAt a aLineIdx
    let remainingSpaces := closestA.Col - a.Col - lineLength
    if remainingSpaces < 0 ∨
        ((s = .above ∨ s = .linesFirstTwo) ∧ remainingSpaces < 2) then
      (false,
       { a with
         row := a.row + 1
         pipeLeadingSpaces := a.pipeLeadingSpaces ++ [a.Col] },
       rights)
    else
      match s with
      | .above => (true, a, setPipeAt rights k rowPlusLineIdx remainingSpaces)
      | .linesFirstTwo =>
          (true, a, setLineAt rights k (rowPlusLineIdx - closestA.row) remainingSpaces)
      | .linesAfterSecond =>
          (true, a, setLineAt rights k (rowPlusLineIdx - closestA.row) remainingSpaces)
      | .trailingSpaceLines =>
        match closestAnnot rowPlusLineIdx rights 0 with
        | none => (true, a, rights)
        | some (closestA2, k2, .above) =>
            (true, a, setPipeAt rights k2 rowPlusLineIdx (closestA2.Col - a.Col - lineLength))
        | some (closestA2, k2, _) =>
            (true, a,
             setLineAt rights k2 (rowPlusLineIdx - closestA2.row)
               (closestA2.Col - a.Col - lineLength))

/-- Loop body of Go `checkLinesAndSetSpaces`: check the label lines with
indices `idx, idx+1, …` (`n` of them), stopping at the first misfit. -/
def checkLinesAux (row : Nat) : Nat → Nat → Annot → List Annot → Bool × Annot × List Annot
  | _, 0, a, rights => (true, a, rights)
  | idx, n + 1, a, rights =>
    let res := checkLineAndSetSpace row idx a rights
    if res.1 then checkLinesAux row (idx + 1) n res.2.1 res.2.2 else res

/-- Mirror of Go `checkLinesAndSetSpaces`. -/
def checkLinesAndSetSpaces (row : Nat) (a : Annot) (rights : List Annot) :
    Bool × Annot × List Annot :=
  checkLinesAux row 0 a.lines.length a rights

/-- Loop of Go `setRow` with explicit fuel (the Go loop is unbounded; a
sufficient fuel is supplied by `setRow` below and lemma
`rowFits_extentBound` shows it is never exhausted). -/
def setRowGo : Nat → Nat → Annot → List Annot → Annot × List Annot
  | 0, _, a, rights => (a, rights)
  | fuel + 1, row, a, rights =>
    let rights1 := if 0 < row then setSpace (row - 1) a rights else rights
    let res := checkLinesAndSetSpaces row a rights1
    if res.1 then (res.2.1, res.2.2) else setRowGo fuel (row + 1) res.2.1 res.2.2

/-- One past the largest row at which any right annotation is still
active (including the one-row trailing lookahead). -/
def extentBound (rights : List Annot) : Nat :=
  rights.foldr (fun n acc => max (n.row + n.lines.length + 1) acc) 0

/-- Mirror of Go `setRow`: find the first row at which every label line
of `a` fits, recording spacing along the way. -/
def setRow (a : Annot) (rights : List Annot) : Annot × List Annot :=
  setRowGo (extentBound rights + 1) 0 a rights

/-- Placement pass of Go `Write`: iterate from the second-to-rightmost
annotation down to the leftmost (the rightmost is left untouched at
`row = 0`), threading the mutations of the shared slice. -/
def placeAll : List Annot → List Annot
  | [] => []
  | [a] => [a]
  | a :: rest =>
    let rest1 := placeAll rest
    let (a1, rest2) := setRow a rest1
    a1 :: rest2

/-- Column comparison used by the sort in Go `Write`
(`slices.SortFunc(annots, func(a, b) int { return a.Col - b.Col })`,
ascending by `Col`). -/
def colLe (a b : Annot) : Prop := a.Col ≤ b.Col

instance : DecidableRel colLe := fun a b => inferInstanceAs (Decidable (a.Col ≤ b.Col))

instance : IsTotal Annot colLe := ⟨fun a b => Int.le_total a.Col b.Col⟩

instance : IsTrans Annot colLe := ⟨fun _ _ _ h1 h2 => le_trans h1 h2⟩

/-- Model of the sort in Go `Write`: sort ascending by `Col`.  Go uses an
unspecified-order comparison sort; we use insertion sort, which agrees
with it on every input whose result is determined (distinct columns, or
duplicates that are equal as values). -/
def sortAnnots (annots : List Annot) : List Annot :=
  annots.insertionSort colLe

/-- Run of Go `slices.CompactFunc(annots, a1.Col == a2.Col)`: collapse
consecutive runs of annotations with equal `Col` to the first element of
the run.  Only adjacent duplicates are removed, and this happens before
the sort. -/
def compactAux (prev : Annot) : List Annot → List Annot
  | [] => []
  | b :: rest =>
    if b.Col = prev.Col then compactAux prev rest else b :: compactAux b rest

/-- Mirror of the `slices.CompactFunc` call at the top of Go `Write`. -/
def compactFunc : List Annot → List Annot
  | [] => []
  | a :: rest => a :: compactAux a rest

/-- Initialization loop of Go `Write`: an annotation without label lines
gets one synthetic empty line appended (leading spaces 0, pipe slice kept
as is); otherwise the cached lines are rebuilt with the display widths,
leading spaces initialized to `Col`, and the pipe slice reset. -/
def initAnnot (a : Annot) : Annot :=
  if a.Lines.isEmpty then
    { a with lines := a.lines ++ [⟨0, 0⟩] }
  else
    { a with
      lines := a.Lines.map fun s => ⟨displayWidth s, a.Col⟩
      pipeLeadingSpaces := ([] : List Int) }

/-- Model of `strings.Repeat(" ", n)`: Go panics on a negative count,
modelled by `none`. -/
def spacesOpt (n : Int) : Option String :=
  if n < 0 then none else some (String.mk (List.replicate n.toNat ' '))

/-- Header loop of Go `write`: an arrow at each annotation's column. -/
def headerAux : Int → List Annot → Option String
  | _, [] => some ""
  | lastColPos, a :: rest => do
    let sp ← spacesOpt (a.Col - lastColPos)
    let s ← headerAux (a.Col + 1) rest
    pure (sp ++ "↑" ++ s)

/-- Row count computed in the header loop of Go `write`:
`max over annotations of row + len(lines)`. -/
def rowCountOf (annots : List Annot) : Nat :=
  annots.foldl (fun m a => max m (a.row + a.lines.length)) 0

/-- Per-annotation segment of a body row in Go `write`.  Out-of-range
indexing (`pipeLeadingSpaces[row]`, `Lines[row-row]`) and negative
repeat counts are Go panics, modelled by `none`. -/
def rowSegment (row : Nat) (a : Annot) : Option String :=
  if row < a.row then do
    let v ← a.pipeLeadingSpaces.get? row
    let sp ← spacesOpt v
    pure (sp ++ "│")
  else if row = a.row then do
    let ln ← a.lines.get? (row - a.row)
    let sp ← spacesOpt ln.leadingSpaces
    pure (sp ++ "└─ " ++ (if a.Lines.isEmpty then "" else a.Lines.headD ""))
  else if row < a.row + a.lines.length then do
    let ln ← a.lines.get? (row - a.row)
    let sp ← spacesOpt ln.leadingSpaces
    let txt ← a.Lines.get? (row - a.row)
    pure (sp ++ "   " ++ txt)
  else
    some ""

/-- Concatenation of the segments of one body row. -/
def rowLine (row : Nat) : List Annot → Option String
  | [] => some ""
  | a :: rest => do
    let s ← rowSegment row a
    let t ← rowLine row rest
    pure (s ++ t)

/-- Body rows `0 .. rowCount-1`, each terminated by a newline. -/
def bodyRows (annots : List Annot) : List Nat → Option String
  | [] => some ""
  | r :: rest => do
    let s ← rowLine r annots
    let t ← bodyRows annots rest
    pure (s ++ "\n" ++ t)

/-- Mirror of Go `write`: header line then the body rows. -/
def write (annots : List Annot) : Option String := do
  let h ← headerAux 0 annots
  let b ← bodyRows annots (List.range (rowCountOf annots))
  pure (h ++ "\n" ++ b)

/-- Mirror of Go `Write`: compact adjacent duplicate columns, stop early
on an empty list, sort by column, initialize the cached lines, run the
placement pass, and render.  Returns the final annotation states (Go
mutates the caller's structs) together with the rendered text
(`none` models a panic). -/
def Write (annots : List Annot) : List Annot × Option String :=
  let c := compactFunc annots
  if c.isEmpty then ([], some "")
  else
    let sorted := sortAnnots c
    let inited := sorted.map initAnnot
    let placed := placeAll inited
    (placed, write placed)

/-- Model of Go `String(annots...)`: the rendered text of `Write` into a
string builder. -/
def stringOf (annots : List Annot) : Option String :=
  (Write annots).2

/-!
Ranged annotations.  The repository's `error.go` declares the two
validation errors and the test suite exercises `ColEnd`, but the code of
`annot.go` that validates ranges and draws the header brackets is not
present under `src/`; the normalization, validation and header
definitions below are therefore modelled from the specification
(sections 4.1, 4.3 and 7), while body placement reuses the `src/annot.go`
engine over anchor columns.
-/

/-- Modelled from the spec: a caller-supplied annotation request with an
optional end column (`columnEnd`), as used by the ranged-annotation code
missing from `src/annot.go`. -/
structure RAnnot where
  Col : Int
  ColEnd : Option Int
  Lines : List String
deriving DecidableEq, Repr

/-- Mirror of the two validation error values declared in `error.go`
(`ColExceedsColEndError{annotPos, col, colEnd}` and
`OverlapError{colEnd, firstAnnotPos, secondAnnotCol}`). -/
inductive ValError where
  | colExceedsColEnd (annotPos : Nat) (col colEnd : Int)
  | overlap (colEnd : Int) (firstAnnotPos : Nat) (secondAnnotCol : Int)
deriving DecidableEq, Repr

/-- Modelled from the spec: scan the post-sort sequence at 1-based
position `pos` with the previous annotation `prev`; a ranged annotation
with `column >= columnEnd` fails with `ColumnRangeInvalid` (shape errors
take priority), else a previous ranged annotation whose `columnEnd`
reaches this `column` fails with `RangeOverlap`. -/
def validateAux (pos : Nat) (prev : Option RAnnot) : List RAnnot → Option ValError
  | [] => none
  | a :: rest =>
    match a.ColEnd with
    | some ce =>
      if ce ≤ a.Col then some (.colExceedsColEnd pos a.Col ce)
      else
        match prev with
        | some p =>
          match p.ColEnd with
          | some pce =>
            if a.Col ≤ pce then some (.overlap pce (pos - 1) a.Col)
            else validateAux (pos + 1) (some a) rest
          | none => validateAux (pos + 1) (some a) rest
        | none => validateAux (pos + 1) (some a) rest
    | none =>
      match prev with
      | some p =>
        match p.ColEnd with
        | some pce =>
          if a.Col ≤ pce then some (.overlap pce (pos - 1) a.Col)
          else validateAux (pos + 1) (some a) rest
        | none => validateAux (pos + 1) (some a) rest
      | none => validateAux (pos + 1) (some a) rest

/-- Modelled from the spec: validation of the normalized (post-sort)
sequence, positions reported 1-based. -/
def validate (l : List RAnnot) : Option ValError :=
  validateAux 1 none l

/-- Modelled from the spec: stable de-duplication by `Col`, keeping the
first-seen annotation of each column in original caller order. -/
def dedupRAux (seen : List Int) : List RAnnot → List RAnnot
  | [] => []
  | a :: rest =>
    if a.Col ∈ seen then dedupRAux seen rest
    else a :: dedupRAux (a.Col :: seen) rest

/-- Modelled from the spec: the de-duplication entry point. -/
def dedupR (l : List RAnnot) : List RAnnot := dedupRAux [] l

/-- Column comparison for ranged requests. -/
def rcolLe (a b : RAnnot) : Prop := a.Col ≤ b.Col

instance : DecidableRel rcolLe := fun a b => inferInstanceAs (Decidable (a.Col ≤ b.Col))

/-- Modelled from the spec: stable ascending sort by `Col`. -/
def sortR (l : List RAnnot) : List RAnnot := l.insertionSort rcolLe

/-- Modelled from the spec: the anchor column, the column under which the
connector is drawn — `Col` for an arrow, the interval midpoint for a
range (integer floor division; all columns here are nonnegative, so the
rounding mode of `Int` division is immaterial). -/
def anchorColumn (a : RAnnot) : Int :=
  match a.ColEnd with
  | none => a.Col
  | some ce => (a.Col + ce) / 2

/-- Modelled from the spec: glyph of the header bracket at column `c` for
a range `[col, ce]` with midpoint `mid`: corner `└` at the start, tee `┬`
at the midpoint (merged to `├` when start and midpoint coincide in the
degenerate two-column form), closing `┘` at the end and `─` between. -/
def bracketGlyph (col ce mid c : Int) : String :=
  if c = col ∧ c = mid then "├"
  else if c = col then "└"
  else if c = mid then "┬"
  else if c = ce then "┘"
  else "─"

/-- Modelled from the spec: the header bracket spanning `[col, ce]`. -/
def bracket (col ce : Int) : String :=
  String.join ((List.range ((ce - col).toNat + 1)).map fun i =>
    bracketGlyph col ce ((col + ce) / 2) (col + i))

/-- Modelled from the spec: the header row with an `↑` at each arrow
annotation's column and a bracket over each range. -/
def rangedHeaderAux : Int → List RAnnot → Option String
  | _, [] => some ""
  | lastColPos, a :: rest =>
    match a.ColEnd with
    | none => do
      let sp ← spacesOpt (a.Col - lastColPos)
      let s ← rangedHeaderAux (a.Col + 1) rest
      pure (sp ++ "↑" ++ s)
    | some ce => do
      let sp ← spacesOpt (a.Col - lastColPos)
      let s ← rangedHeaderAux (ce + 1) rest
      pure (sp ++ bracket a.Col ce ++ s)

/-- Modelled from the spec: build the placement record of a request — the
same record the `src/annot.go` engine uses, with the anchor column in the
role of `Col` and the initial leading spaces (also of the synthetic empty
line of a label-less annotation) set to the anchor column. -/
def initRAnnot (a : RAnnot) : Annot :=
  { Col := anchorColumn a
    Lines := a.Lines
    row := 0
    lines :=
      if a.Lines.isEmpty then [⟨0, anchorColumn a⟩]
      else a.Lines.map fun s => ⟨displayWidth s, anchorColumn a⟩
    pipeLeadingSpaces := [] }

/-- Modelled from the spec: render an already normalized (deduplicated,
sorted, validated) ranged sequence — header row, then the body rows
produced by the same placement engine and row writer as `src/annot.go`. -/
def rangedWrite (s : List RAnnot) : Option String := do
  let h ← rangedHeaderAux 0 s
  let placed := placeAll (s.map initRAnnot)
  let b ← bodyRows placed (List.range (rowCountOf placed))
  pure (h ++ "\n" ++ b)

/-- Modelled from the spec: the full ranged render call — normalize,
validate, and only on success produce output (a validation error aborts
the call before anything is written). -/
def renderRanged (l : List RAnnot) : Except ValError (Option String) :=
  let s := sortR (dedupR l)
  match validate s with
  | some e => .error e
  | none => .ok (rangedWrite s)

instance {ε α : Type} [DecidableEq ε] [DecidableEq α] : DecidableEq (Except ε α) := fun x y => by
  cases x <;> cases y
  case error.error a b => exact decidable_of_iff (a = b) (by simp)
  case ok.ok a b => exact decidable_of_iff (a = b) (by simp)
  all_goals exact isFalse (by simp)

/-!
Pure decision predicates.  During one `setRow` call the fit decision for
a candidate row depends only on data that none of the space-recording
writes change: the annotation's column and line widths, and each right
neighbor's column, row and line count.  The following definitions
capture the decision, and the lemmas after them prove it agrees with
the state-passing functions above.
-/

/-- Decision part of `checkLineAndSetSpace` (same branches, no state). -/
def lineFits (row aLineIdx : Nat) (a : Annot) (rights : List Annot) : Bool :=
  match closestAnnot (row + aLineIdx) rights 1 with
  | none => true
  | some (closestA, _, s) =>
    let lineLength : Int := 3 + lineWidthAt a aLineIdx
    let remainingSpaces := closestA.Col - a.Col - lineLength
    if remainingSpaces < 0 ∨
        ((s = .above ∨ s = .linesFirstTwo) ∧ remainingSpaces < 2) then false
    else true

/-- Decision part of `checkLinesAndSetSpaces`: every label line fits. -/
def rowFits (row : Nat) (a : Annot) (rights : List Annot) : Bool :=
  (List.range a.lines.length).all fun i => lineFits row i a rights

/-- Data of a right neighbor that the fit decision can read: column, row
and line count. -/
def nbShape (a : Annot) : Int × Nat × Nat := (a.Col, a.row, a.lines.length)

/-- Decision-relevant data of a whole right-neighbor list. -/
def nbShapes (l : List Annot) : List (Int × Nat × Nat) := l.map nbShape

/-- Strict column comparison (used to compare sorted duplicate-free
lists). -/
def colLt (a b : Annot) : Prop := a.Col < b.Col

instance : DecidableRel colLt := fun a b => inferInstanceAs (Decidable (a.Col < b.Col))

instance : IsAntisymm Annot colLt := ⟨fun _ _ h1 h2 => absurd h2 (lt_asymm h1)⟩

/-!
Concrete configurations shared by the theorems below.
-/

/-- Left annotation of the second-line scenario: column 0, one label line
of width 1, as initialized by the `Write` init loop. -/
def cexA : Annot := initAnnot (mkAnnot 0 ["x"])

/-- Right neighbor of the second-line scenario: column 5, two label lines
of width 5, initialized and already placed at row 0 (the rightmost
annotation is never moved). -/
def cexN : Annot := initAnnot (mkAnnot 5 ["line1", "line2"])

/-!
Shape-preservation and congruence lemmas.
-/

theorem modifyIdx_map_eq {α β : Type} (g : α → β) (f : α → α)
    (h : ∀ x, g (f x) = g x) :
    ∀ (l : List α) (i : Nat), (modifyIdx l i f).map g = l.map g := by
  intro l
  induction l with
  | nil => intro i; rfl
  | cons x xs ih =>
    intro i
    cases i with
    | zero => simp [modifyIdx, h]
    | succ n => simp [modifyIdx, ih]

theorem modifyIdx_length {α : Type} (f : α → α) :
    ∀ (l : List α) (i : Nat), (modifyIdx l i f).length = l.length := by
  intro l
  induction l with
  | nil => intro i; rfl
  | cons x xs ih =>
    intro i
    cases i with
    | zero => simp [modifyIdx]
    | succ n => simp [modifyIdx, ih]

theorem nbShapes_setPipeAt (rights : List Annot) (k i : Nat) (v : Int) :
    nbShapes (setPipeAt rights k i v) = nbShapes rights := by
  unfold nbShapes setPipeAt
  apply modifyIdx_map_eq
  intro x
  rfl

theorem nbShapes_setLineAt (rights : List Annot) (k i : Nat) (v : Int) :
    nbShapes (setLineAt rights k i v) = nbShapes rights := by
  unfold nbShapes setLineAt
  apply modifyIdx_map_eq
  intro x
  simp [nbShape, modifyIdx_length]

theorem nbShapes_setSpace (rowBefore : Nat) (a : Annot) (rights : List Annot) :
    nbShapes (setSpace rowBefore a rights) = nbShapes rights := by
  unfold setSpace
  rcases h : closestAnnot rowBefore rights 0 with _ | ⟨N, k, s⟩
  · rfl
  · cases s <;> simp [nbShapes_setPipeAt, nbShapes_setLineAt]

theorem nbShapes_cols (l1 l2 : List Annot) (h : nbShapes l1 = nbShapes l2) :
    l1.map Annot.Col = l2.map Annot.Col := by
  have h1 : (nbShapes l1).map Prod.fst = (nbShapes l2).map Prod.fst := by rw [h]
  simpa [nbShapes, List.map_map, Function.comp, nbShape] using h1

theorem nbShapes_rows (l1 l2 : List Annot) (h : nbShapes l1 = nbShapes l2) :
    l1.map Annot.row = l2.map Annot.row := by
  have h1 : (nbShapes l1).map (fun p => p.2.1) = (nbShapes l2).map (fun p => p.2.1) := by rw [h]
  simpa [nbShapes, List.map_map, Function.comp, nbShape] using h1

theorem nbShapes_length (l1 l2 : List Annot) (h : nbShapes l1 = nbShapes l2) :
    l1.length = l2.length := by
  have := congrArg List.length h
  simpa [nbShapes] using this

theorem closestAnnotAux_congr :
    ∀ (r1 r2 : List Annot), nbShapes r1 = nbShapes r2 → ∀ (row t idx : Nat),
    Option.map (fun p : Annot × Nat × SectionKind => (nbShape p.1, p.2))
        (closestAnnotAux row t idx r1) =
      Option.map (fun p : Annot × Nat × SectionKind => (nbShape p.1, p.2))
        (closestAnnotAux row t idx r2) := by
  intro r1
  induction r1 with
  | nil =>
    intro r2 h row t idx
    have : r2 = [] := by
      cases r2 with
      | nil => rfl
      | cons b bs => simp [nbShapes] at h
    subst this; rfl
  | cons a as ih =>
    intro r2 h row t idx
    cases r2 with
    | nil => simp [nbShapes] at h
    | cons b bs =>
      simp only [nbShapes, List.map_cons, List.cons.injEq] at h
      obtain ⟨hab, htail⟩ := h
      have hCol : a.Col = b.Col := congrArg Prod.fst hab
      have hrow : a.row = b.row := congrArg (fun p => p.2.1) hab
      have hlen : a.lines.length = b.lines.length := congrArg (fun p => p.2.2) hab
      have htail1 : nbShapes as = nbShapes bs := htail
      simp only [closestAnnotAux, hrow, hlen]
      split_ifs with h1 h2 h3 h4
      · simp [hab]
      · simp [hab]
      · simp [hab]
      · simp [hab]
      · exact ih bs htail1 row t (idx + 1)

theorem closestAnnotAux_sound :
    ∀ (l : List Annot) (row t idx : Nat) (N : Annot) (k : Nat) (s : SectionKind),
    closestAnnotAux row t idx l = some (N, k, s) →
    ((s = .above → row < N.row) ∧
     (s = .linesFirstTwo → N.row ≤ row ∧ row < N.row + N.lines.length ∧ row < 2) ∧
     (s = .linesAfterSecond → 2 ≤ row ∧ row < N.row + N.lines.length) ∧
     (s = .trailingSpaceLines →
        N.row + N.lines.length ≤ row ∧ row < N.row + N.lines.length + t)) := by
  intro l
  induction l with
  | nil => intro row t idx N k s h; simp [closestAnnotAux] at h
  | cons a as ih =>
    intro row t idx N k s h
    simp only [closestAnnotAux] at h
    split_ifs at h with h1 h2 h3 h4
    · injection h with h'
      injection h' with hNa h''
      injection h'' with hk hs
      subst hNa; subst hs
      exact ⟨fun _ => h1, fun hh => by simp at hh, fun hh => by simp at hh,
        fun hh => by simp at hh⟩
    · injection h with h'
      injection h' with hNa h''
      injection h'' with hk hs
      subst hNa; subst hs
      exact ⟨fun hh => by simp at hh, fun _ => h2, fun hh => by simp at hh,
        fun hh => by simp at hh⟩
    · injection h with h'
      injection h' with hNa h''
      injection h'' with hk hs
      subst hNa; subst hs
      exact ⟨fun hh => by simp at hh, fun hh => by simp at hh, fun _ => h3,
        fun hh => by simp at hh⟩
    · injection h with h'
      injection h' with hNa h''
      injection h'' with hk hs
      subst hNa; subst hs
      exact ⟨fun hh => by simp at hh, fun hh => by simp at hh, fun hh => by simp at hh,
        fun _ => h4⟩
    · exact ih row t (idx + 1) N k s h

theorem lineWidthAt_eq (a : Annot) (i : Nat) :
    lineWidthAt a i = ((a.lines.map Line.length).get? i).getD 0 := by
  rw [lineWidthAt, List.get?_map]

theorem lineFits_congr (a1 a2 : Annot) (r1 r2 : List Annot)
    (ha : a1.Col = a2.Col) (hl : a1.lines.map Line.length = a2.lines.map Line.length)
    (hr : nbShapes r1 = nbShapes r2) (row i : Nat) :
    lineFits row i a1 r1 = lineFits row i a2 r2 := by
  have hw : lineWidthAt a1 i = lineWidthAt a2 i := by
    rw [lineWidthAt_eq, lineWidthAt_eq, hl]
  have hcl := closestAnnotAux_congr r1 r2 hr (row + i) 1 0
  unfold lineFits closestAnnot
  cases h1 : closestAnnotAux (row + i) 1 0 r1 with
  | none =>
    cases h2 : closestAnnotAux (row + i) 1 0 r2 with
    | none => rfl
    | some q => rw [h1, h2] at hcl; simp at hcl
  | some p =>
    cases h2 : closestAnnotAux (row + i) 1 0 r2 with
    | none => rw [h1, h2] at hcl; simp at hcl
    | some q =>
      obtain ⟨N1, k1, s1⟩ := p
      obtain ⟨N2, k2, s2⟩ := q
      rw [h1, h2, Option.map_some', Option.map_some', Option.some.injEq] at hcl
      have hN : N1.Col = N2.Col := by
        have := congrArg (fun p : (Int × Nat × Nat) × Nat × SectionKind => p.1.1) hcl
        simpa [nbShape] using this
      have hs : s1 = s2 := by
        have := congrArg (fun p : (Int × Nat × Nat) × Nat × SectionKind => p.2.2) hcl
        simpa using this
      dsimp only
      rw [ha, hw, hN, hs]

theorem checkLine_spec (row i : Nat) (a : Annot) (rights : List Annot) :
    (checkLineAndSetSpace row i a rights).1 = lineFits row i a rights ∧
    nbShapes (checkLineAndSetSpace row i a rights).2.2 = nbShapes rights ∧
    ((checkLineAndSetSpace row i a rights).1 = true →
      (checkLineAndSetSpace row i a rights).2.1 = a) ∧
    ((checkLineAndSetSpace row i a rights).1 = false →
      (checkLineAndSetSpace row i a rights).2.1 =
        { a with row := a.row + 1, pipeLeadingSpaces := a.pipeLeadingSpaces ++ [a.Col] } ∧
      (checkLineAndSetSpace row i a rights).2.2 = rights) := by
  unfold checkLineAndSetSpace lineFits
  dsimp only
  cases hc : closestAnnot (row + i) rights 1 with
  | none => exact ⟨rfl, rfl, fun _ => rfl, fun h => by simp at h⟩
  | some p =>
    obtain ⟨N, k, s⟩ := p
    dsimp only
    split_ifs with hcond
    · exact ⟨rfl, rfl, fun h => by simp at h, fun _ => ⟨rfl, rfl⟩⟩
    · cases s
      · exact ⟨rfl, by simp [nbShapes_setPipeAt], fun _ => rfl, fun h => by simp at h⟩
      · exact ⟨rfl, by simp [nbShapes_setLineAt], fun _ => rfl, fun h => by simp at h⟩
      · exact ⟨rfl, by simp [nbShapes_setLineAt], fun _ => rfl, fun h => by simp at h⟩
      · cases hc2 : closestAnnot (row + i) rights 0 with
        | none => exact ⟨rfl, rfl, fun _ => rfl, fun h => by simp at h⟩
        | some q =>
          obtain ⟨N2, k2, s2⟩ := q
          cases s2 <;>
            exact ⟨rfl, by simp [nbShapes_setPipeAt, nbShapes_setLineAt], fun _ => rfl,
              fun h => by simp at h⟩

theorem all_congr_of_eq {α : Type} (l : List α) (f g : α → Bool)
    (h : ∀ x ∈ l, f x = g x) : l.all f = l.all g := by
  induction l with
  | nil => rfl
  | cons x xs ih =>
    simp only [List.all_cons]
    rw [h x (by simp), ih fun y hy => h y (by simp [hy])]

theorem checkLinesAux_spec (row : Nat) :
    ∀ (n idx : Nat) (a : Annot) (rights : List Annot),
    nbShapes (checkLinesAux row idx n a rights).2.2 = nbShapes rights ∧
    (checkLinesAux row idx n a rights).1 =
      (List.range' idx n).all (fun i => lineFits row i a rights) ∧
    ((checkLinesAux row idx n a rights).1 = true →
      (checkLinesAux row idx n a rights).2.1 = a) ∧
    ((checkLinesAux row idx n a rights).1 = false →
      (checkLinesAux row idx n a rights).2.1 =
        { a with row := a.row + 1, pipeLeadingSpaces := a.pipeLeadingSpaces ++ [a.Col] }) := by
  intro n
  induction n with
  | zero =>
    intro idx a rights
    exact ⟨rfl, rfl, fun _ => rfl, fun h => by simp [checkLinesAux] at h⟩
  | succ m ih =>
    intro idx a rights
    obtain ⟨hfst, hsh, htrue, hfalse⟩ := checkLine_spec row idx a rights
    simp only [checkLinesAux]
    cases hres : (checkLineAndSetSpace row idx a rights).1 with
    | true =>
      have ha1 : (checkLineAndSetSpace row idx a rights).2.1 = a := htrue hres
      have hfit : lineFits row idx a rights = true := by rw [← hfst, hres]
      obtain ⟨ih1, ih2, ih3, ih4⟩ :=
        ih (idx + 1) (checkLineAndSetSpace row idx a rights).2.1
          (checkLineAndSetSpace row idx a rights).2.2
      rw [if_pos rfl]
      refine ⟨ih1.trans hsh, ?_, ?_, ?_⟩
      · rw [ih2, ha1, List.range'_succ, List.all_cons, hfit, Bool.true_and]
        apply all_congr_of_eq
        intro x _
        exact lineFits_congr a a _ rights rfl rfl hsh row x
      · intro h; rw [ih3 h, ha1]
      · intro h; rw [ih4 h, ha1]
    | false =>
      have hfit : lineFits row idx a rights = false := by rw [← hfst, hres]
      rw [if_neg (by simp)]
      refine ⟨by rw [(hfalse hres).2], ?_, fun h => by simp [h] at hres,
        fun _ => (hfalse hres).1⟩
      rw [hres, List.range'_succ, List.all_cons, hfit, Bool.false_and]

theorem checkLines_fst (row : Nat) (a : Annot) (rights : List Annot) :
    (checkLinesAndSetSpaces row a rights).1 = rowFits row a rights := by
  have h := (checkLinesAux_spec row a.lines.length 0 a rights).2.1
  rw [checkLinesAndSetSpaces, h, rowFits, List.range_eq_range']

theorem checkLines_shapes (row : Nat) (a : Annot) (rights : List Annot) :
    nbShapes (checkLinesAndSetSpaces row a rights).2.2 = nbShapes rights :=
  (checkLinesAux_spec row a.lines.length 0 a rights).1

theorem checkLines_true (row : Nat) (a : Annot) (rights : List Annot)
    (h : (checkLinesAndSetSpaces row a rights).1 = true) :
    (checkLinesAndSetSpaces row a rights).2.1 = a :=
  (checkLinesAux_spec row a.lines.length 0 a rights).2.2.1 h

theorem checkLines_false (row : Nat) (a : Annot) (rights : List Annot)
    (h : (checkLinesAndSetSpaces row a rights).1 = false) :
    (checkLinesAndSetSpaces row a rights).2.1 =
      { a with row := a.row + 1, pipeLeadingSpaces := a.pipeLeadingSpaces ++ [a.Col] } :=
  (checkLinesAux_spec row a.lines.length 0 a rights).2.2.2 h

theorem rowFits_congr (a1 a2 : Annot) (r1 r2 : List Annot)
    (ha : a1.Col = a2.Col) (hl : a1.lines.map Line.length = a2.lines.map Line.length)
    (hr : nbShapes r1 = nbShapes r2) (row : Nat) :
    rowFits row a1 r1 = rowFits row a2 r2 := by
  have hlen : a1.lines.length = a2.lines.length := by
    have := congrArg List.length hl
    simpa using this
  rw [rowFits, rowFits, hlen]
  apply all_congr_of_eq
  intro i _
  exact lineFits_congr a1 a2 r1 r2 ha hl hr row i

theorem setRowGo_succ (fuel row : Nat) (a : Annot) (rights : List Annot) :
    setRowGo (fuel + 1) row a rights =
      (if (checkLinesAndSetSpaces row a
            (if 0 < row then setSpace (row - 1) a rights else rights)).1 then
        ((checkLinesAndSetSpaces row a
            (if 0 < row then setSpace (row - 1) a rights else rights)).2.1,
         (checkLinesAndSetSpaces row a
            (if 0 < row then setSpace (row - 1) a rights else rights)).2.2)
      else
        setRowGo fuel (row + 1)
          (checkLinesAndSetSpaces row a
            (if 0 < row then setSpace (row - 1) a rights else rights)).2.1
          (checkLinesAndSetSpaces row a
            (if 0 < row then setSpace (row - 1) a rights else rights)).2.2) := rfl

theorem setRowGo_spec :
    ∀ (fuel row : Nat) (a : Annot) (rights : List Annot) (a0 : Annot) (rights0 : List Annot),
    a.Col = a0.Col → a.lines.map Line.length = a0.lines.map Line.length →
    nbShapes rights = nbShapes rights0 →
    (∃ r, row ≤ r ∧ r < row + fuel ∧ rowFits r a0 rights0 = true) →
    ∃ R, row ≤ R ∧ rowFits R a0 rights0 = true ∧
      (∀ r, row ≤ r → r < R → rowFits r a0 rights0 = false) ∧
      (setRowGo fuel row a rights).1.row = a.row + (R - row) := by
  intro fuel
  induction fuel with
  | zero =>
    intro row a rights a0 rights0 _ _ _ hex
    obtain ⟨r, hr1, hr2, _⟩ := hex
    omega
  | succ m ih =>
    intro row a rights a0 rights0 hCol hLines hSh hex
    rw [setRowGo_succ]
    generalize hr1 : (if 0 < row then setSpace (row - 1) a rights else rights) = rights1
    have hSh1 : nbShapes rights1 = nbShapes rights0 := by
      rw [← hr1]
      split_ifs
      · rw [nbShapes_setSpace]; exact hSh
      · exact hSh
    have hfst : (checkLinesAndSetSpaces row a rights1).1 = rowFits row a0 rights0 := by
      rw [checkLines_fst]
      exact rowFits_congr a a0 rights1 rights0 hCol hLines hSh1 row
    cases hret : (checkLinesAndSetSpaces row a rights1).1 with
    | true =>
      refine ⟨row, le_refl row, by rw [← hfst]; exact hret,
        fun r h1 h2 => absurd h2 (by omega), ?_⟩
      rw [if_pos rfl]
      have := checkLines_true row a rights1 hret
      simp only [this]
      omega
    | false =>
      have hfalse : rowFits row a0 rights0 = false := by rw [← hfst]; exact hret
      obtain ⟨r, hrle, hrlt, hfits⟩ := hex
      have hrne : r ≠ row := fun he => by rw [he, hfalse] at hfits; simp at hfits
      have ha1 := checkLines_false row a rights1 hret
      obtain ⟨R, hR1, hR2, hR3, hR4⟩ :=
        ih (row + 1) (checkLinesAndSetSpaces row a rights1).2.1
          (checkLinesAndSetSpaces row a rights1).2.2 a0 rights0
          (by rw [ha1]; exact hCol) (by rw [ha1]; exact hLines)
          ((checkLines_shapes row a rights1).trans hSh1)
          ⟨r, by omega, by omega, hfits⟩
      refine ⟨R, by omega, hR2, ?_, ?_⟩
      · intro rr h1 h2
        rcases Nat.lt_or_ge rr (row + 1) with hlt2 | hge
        · have he : rr = row := by omega
          rw [he]
          exact hfalse
        · exact hR3 rr hge h2
      · rw [if_neg (by simp)]
        rw [hR4]
        simp only [ha1]
        omega

theorem mem_le_extentBound :
    ∀ (rights : List Annot), ∀ n ∈ rights, n.row + n.lines.length + 1 ≤ extentBound rights := by
  intro rights
  induction rights with
  | nil => intro n h; simp at h
  | cons x xs ih =>
    intro n h
    rcases List.mem_cons.mp h with he | hm
    · rw [he]
      exact le_max_left _ _
    · exact le_trans (ih n hm) (le_max_right _ _)

theorem closestAnnotAux_none_of_big :
    ∀ (l : List Annot) (row t idx : Nat),
    (∀ n ∈ l, n.row + n.lines.length + t ≤ row) →
    closestAnnotAux row t idx l = none := by
  intro l
  induction l with
  | nil => intro row t idx _; rfl
  | cons a as ih =>
    intro row t idx h
    have ha := h a (by simp)
    simp only [closestAnnotAux]
    rw [if_neg (by omega), if_neg (by omega), if_neg (by omega), if_neg (by omega)]
    exact ih row t (idx + 1) fun n hn => h n (by simp [hn])

theorem rowFits_extentBound (a : Annot) (rights : List Annot) (r : Nat)
    (h : extentBound rights ≤ r) : rowFits r a rights = true := by
  rw [rowFits]
  simp only [List.all_eq_true]
  intro i _
  have hnone : closestAnnot (r + i) rights 1 = none := by
    apply closestAnnotAux_none_of_big
    intro n hn
    have := mem_le_extentBound rights n hn
    omega
  unfold lineFits
  rw [hnone]

/-!
Theorems.
-/

/-- C1, counterexample.  In the placement of `cexA` against right
neighbor `cexN`, label line 0 tested at candidate row 1 meets `cexN` at
absolute row `cexN.row + 1`; the claimed quantity
`neighborAnchor + 3 − A.anchorColumn − (3 + width)` equals 4, so the
claim (minimum gap 4) says the line is accepted — but the code rejects
the row. -/
theorem claim1_cex :
    closestAnnot (1 + 0) [cexN] 1 = some (cexN, 0, .linesFirstTwo) ∧
    1 + 0 = cexN.row + 1 ∧
    4 ≤ cexN.Col + 3 - cexA.Col - (3 + lineWidthAt cexA 0) ∧
    (checkLineAndSetSpace 1 0 cexA [cexN]).1 = false ∧
    (setRow cexA [cexN]).1.row = 2 := by decide

/-- C2.  Row placement is minimal: `setRow` accepts exactly the first
candidate row (starting at 0) at which every label line passes the
horizontal-fit check against the right neighbors; in particular, when
the final row is positive, the check failed at every smaller candidate
row, including the one just below. -/
theorem claim2_row_minimal (a : Annot) (rights : List Annot) (h : a.row = 0) :
    (checkLinesAndSetSpaces ((setRow a rights).1.row) a rights).1 = true ∧
    ∀ r < (setRow a rights).1.row, (checkLinesAndSetSpaces r a rights).1 = false := by
  have hex : ∃ r, 0 ≤ r ∧ r < 0 + (extentBound rights + 1) ∧ rowFits r a rights = true :=
    ⟨extentBound rights, by omega, by omega, rowFits_extentBound a rights _ (le_refl _)⟩
  obtain ⟨R, _, hfit, hbelow, hrow⟩ :=
    setRowGo_spec (extentBound rights + 1) 0 a rights a rights rfl rfl rfl hex
  have hrow2 : (setRow a rights).1.row = R := by
    rw [setRow, hrow, h]
    omega
  constructor
  · rw [hrow2, checkLines_fst]
    exact hfit
  · intro r hr
    rw [hrow2] at hr
    rw [checkLines_fst]
    exact hbelow r (Nat.zero_le r) hr

/-- C2, witness: the concrete placement of `cexA` against `cexN` (final
row 1) satisfies the hypothesis and the conclusion of the theorem. -/
theorem claim2_row_minimal_w :
    cexA.row = 0 ∧
    ((checkLinesAndSetSpaces ((setRow cexA [cexN]).1.row) cexA [cexN]).1 = true ∧
     ∀ r < (setRow cexA [cexN]).1.row, (checkLinesAndSetSpaces r cexA [cexN]).1 = false) :=
  ⟨by decide, claim2_row_minimal cexA [cexN] (by decide)⟩

/-- C1, amended.  When the nearest active right neighbor `N` at the
tested absolute row `r + i` satisfies `r + i = N.row + 1` and that row
still lies among `N`'s label lines, the line is accepted iff the
unshifted remainder `N.Col − a.Col − (3 + width)` is at least 2 when the
absolute row is below 2 and at least 0 otherwise (in the claim's
shift-by-3 convention: minimum gap 5, respectively 3, not 4), and a
rejection appends a fallback pipe leading space of `a.Col` and bumps the
row by one. -/
theorem claim1_amended (a : Annot) (rights : List Annot) (r i k : Nat) (N : Annot)
    (s : SectionKind)
    (hc : closestAnnot (r + i) rights 1 = some (N, k, s))
    (hrow : r + i = N.row + 1)
    (hin : r + i < N.row + N.lines.length) :
    ((checkLineAndSetSpace r i a rights).1 = true ↔
      (if r + i < 2 then (2 : Int) else 0) ≤ N.Col - a.Col - (3 + lineWidthAt a i)) ∧
    ((checkLineAndSetSpace r i a rights).1 = false →
      (checkLineAndSetSpace r i a rights).2.1 =
        { a with row := a.row + 1, pipeLeadingSpaces := a.pipeLeadingSpaces ++ [a.Col] }) := by
  obtain ⟨hab, hft, has, htr⟩ := closestAnnotAux_sound rights (r + i) 1 0 N k s hc
  refine ⟨?_, fun h => ((checkLine_spec r i a rights).2.2.2 h).1⟩
  rw [(checkLine_spec r i a rights).1]
  unfold lineFits
  rw [hc]
  dsimp only
  cases s
  · exact absurd (hab rfl) (by omega)
  · have h2 : r + i < 2 := (hft rfl).2.2
    rw [if_pos h2]
    rcases Int.lt_or_le (N.Col - a.Col - (3 + (lineWidthAt a i : Int))) 2 with hlt | hge
    · have hcpos : N.Col - a.Col - (3 + (lineWidthAt a i : Int)) < 0 ∨
          ((SectionKind.linesFirstTwo = SectionKind.above ∨
            SectionKind.linesFirstTwo = SectionKind.linesFirstTwo) ∧
           N.Col - a.Col - (3 + (lineWidthAt a i : Int)) < 2) := Or.inr ⟨Or.inr rfl, hlt⟩
      rw [if_pos hcpos]
      constructor
      · intro ht; simp at ht
      · intro hge2; exact absurd hge2 (by omega)
    · have hcneg : ¬(N.Col - a.Col - (3 + (lineWidthAt a i : Int)) < 0 ∨
          ((SectionKind.linesFirstTwo = SectionKind.above ∨
            SectionKind.linesFirstTwo = SectionKind.linesFirstTwo) ∧
           N.Col - a.Col - (3 + (lineWidthAt a i : Int)) < 2)) := by
        rintro (h1 | ⟨_, h3⟩) <;> omega
      rw [if_neg hcneg]
      exact ⟨fun _ => hge, fun _ => rfl⟩
  · have h2 : 2 ≤ r + i := (has rfl).1
    rw [if_neg (show ¬(r + i < 2) by omega)]
    rcases Int.lt_or_le (N.Col - a.Col - (3 + (lineWidthAt a i : Int))) 0 with hlt | hge
    · have hcpos : N.Col - a.Col - (3 + (lineWidthAt a i : Int)) < 0 ∨
          ((SectionKind.linesAfterSecond = SectionKind.above ∨
            SectionKind.linesAfterSecond = SectionKind.linesFirstTwo) ∧
           N.Col - a.Col - (3 + (lineWidthAt a i : Int)) < 2) := Or.inl hlt
      rw [if_pos hcpos]
      constructor
      · intro ht; simp at ht
      · intro hge2; exact absurd hge2 (by omega)
    · have hcneg : ¬(N.Col - a.Col - (3 + (lineWidthAt a i : Int)) < 0 ∨
          ((SectionKind.linesAfterSecond = SectionKind.above ∨
            SectionKind.linesAfterSecond = SectionKind.linesFirstTwo) ∧
           N.Col - a.Col - (3 + (lineWidthAt a i : Int)) < 2)) := by
        rintro (h1 | ⟨habs, _⟩)
        · omega
        · rcases habs with h1 | h1 <;> simp at h1
      rw [if_neg hcneg]
      exact ⟨fun _ => hge, fun _ => rfl⟩
  · exact absurd (htr rfl).1 (by omega)

/-- C1, amended, witness: the configuration of `claim1_cex`
instantiates the amended theorem (the line is rejected, spacing 1 being
below the required 2). -/
theorem claim1_amended_w :
    ((checkLineAndSetSpace 1 0 cexA [cexN]).1 = true ↔
      (if 1 + 0 < 2 then (2 : Int) else 0) ≤ cexN.Col - cexA.Col - (3 + lineWidthAt cexA 0)) ∧
    ((checkLineAndSetSpace 1 0 cexA [cexN]).1 = false →
      (checkLineAndSetSpace 1 0 cexA [cexN]).2.1 =
        { cexA with
          row := cexA.row + 1
          pipeLeadingSpaces := cexA.pipeLeadingSpaces ++ [cexA.Col] }) :=
  claim1_amended cexA [cexN] 1 0 0 cexN .linesFirstTwo (by decide) (by decide) (by decide)

/-- C3.  Two annotations at columns 0 and 10, each with label lines
`line1`, `line2`, render as the claimed header and two body rows with the
10-column spacing preserved. -/
theorem claim3_scenario :
    stringOf [mkAnnot 0 ["line1", "line2"], mkAnnot 10 ["line1", "line2"]] =
      some "↑         ↑\n└─ line1  └─ line1\n   line2     line2\n" := by decide

/-- C4.  Two annotations share column 0 but are not adjacent in the
caller-supplied list: `slices.CompactFunc` (which runs before the sort
and only removes adjacent duplicates) keeps both, and the render then
panics on a negative `strings.Repeat` count (`none`) instead of
producing the output of the deduplicated list. -/
theorem claim4_nonadjacent_dup :
    (Write [mkAnnot 0 [], mkAnnot 1 [], mkAnnot 0 []]).2 = none ∧
    (Write [mkAnnot 0 [], mkAnnot 1 []]).2 = some "↑↑\n│└─ \n│\n└─ \n" := by decide

/-- C6, counterexample.  The ranged annotation `[0,2]` with no label does
not render the body row directly below the bracket's left corner: the
claimed output (body `└─ ` at column 0) is not produced. -/
theorem claim6_cex :
    renderRanged [⟨0, some 2, []⟩] ≠ .ok (some "└┬┘\n└─ \n") := by decide

/-- C6, amended.  The ranged annotation `[0,2]` with no label renders the
header bracket `└┬┘` and the body row ` └─ ` — the connector sits under
the anchor column 1 (the interval midpoint), one column to the right of
what the claim states. -/
theorem claim6_amended :
    renderRanged [⟨0, some 2, []⟩] = .ok (some "└┬┘\n └─ \n") := by decide

/-- C9.  Rendering the same two annotations twice through the same
(mutated) structs is not idempotent: the first call succeeds, but the
stale `row` and `pipeLeadingSpaces` state makes the second call panic
(out-of-range pipe index, modelled `none`) instead of reproducing the
first output. -/
theorem claim9_double_render :
    (Write [mkAnnot 0 ["x"], mkAnnot 5 ["y"]]).2 =
      some "↑    ↑\n│    └─ y\n└─ x\n" ∧
    (Write (Write [mkAnnot 0 ["x"], mkAnnot 5 ["y"]]).1).2 = none := by decide

/-- C5, amended.  When the post-sort scan reaches a ranged annotation
with `Col >= ColEnd` at 1-based position `pos` (whatever the previous
annotation is — so a shape error on this annotation is reported in
preference to its own overlap with the predecessor), validation fails
with `ColumnRangeInvalid` carrying that position and the offending
column values; and any validation error makes the render call return
that error with no output.  The claim's stronger statement — that every
input merely containing such an annotation fails with
`ColumnRangeInvalid` — is refuted by the counterexample, where an
earlier pair's `RangeOverlap` is reported instead. -/
theorem claim5_amended (pos : Nat) (prev : Option RAnnot) (a : RAnnot)
    (rest : List RAnnot) (ce : Int) (hce : a.ColEnd = some ce) (hbad : ce ≤ a.Col) :
    validateAux pos prev (a :: rest) = some (.colExceedsColEnd pos a.Col ce) ∧
    ∀ (l : List RAnnot) (e : ValError),
      validate (sortR (dedupR l)) = some e → renderRanged l = .error e := by
  constructor
  · simp only [validateAux, hce]
    rw [if_pos hbad]
  · intro l e hv
    unfold renderRanged
    dsimp only
    rw [hv]

/-- C5, amended, witness: the repository's own precedence scenario — a
degenerate range at position 1 followed by a range starting at the same
column — reports `ColumnRangeInvalid` for position 1, and validation
errors abort the render. -/
theorem claim5_amended_w :
    validateAux 1 none [(⟨1, some 1, []⟩ : RAnnot), ⟨1, some 2, []⟩] =
      some (.colExceedsColEnd 1 (1 : Int) 1) ∧
    ∀ (l : List RAnnot) (e : ValError),
      validate (sortR (dedupR l)) = some e → renderRanged l = .error e :=
  claim5_amended 1 none ⟨1, some 1, []⟩ [⟨1, some 2, []⟩] 1 (by decide) (by decide)

/-- C5, counterexample.  The input contains a ranged annotation whose
start column equals its end column (position 3 post-sort, columns 5 and
5), yet the render call fails with `RangeOverlap` of an earlier pair, not
with `ColumnRangeInvalid` — the scan stops at the first error in
post-sort order. -/
theorem claim5_cex :
    renderRanged [⟨0, some 1, []⟩, ⟨1, some 3, []⟩, ⟨5, some 5, []⟩] =
      .error (.overlap 1 1 1) ∧
    ValError.overlap 1 1 1 ≠ ValError.colExceedsColEnd 3 5 5 := by decide

/-- Helper: appending a string to an explicit character list. -/
theorem mk_append (l : List Char) (s : String) :
    String.mk l ++ s = String.mk (l ++ s.data) := by
  cases s
  rfl

/-- C10.  A single annotation with column `c` and no label lines renders
the header with the arrow at column `c` and exactly one body row whose
connector `└─ ` is emitted with zero leading spaces — at column 0, not
under the arrow (the synthetic empty line is initialized with leading
spaces 0, not `Col`). -/
theorem claim10_empty_lines (c : Nat) :
    stringOf [mkAnnot (c : Int) []] =
      some (String.mk (List.replicate c ' ') ++ "↑\n└─ \n") := by
  have hsp : spacesOpt ((c : Int) - 0) = some (String.mk (List.replicate c ' ')) := by
    unfold spacesOpt
    rw [Int.sub_zero, if_neg (by omega), Int.toNat_natCast]
  have hheader : headerAux 0 [(⟨(c : Int), [], 0, [⟨0, 0⟩], []⟩ : Annot)] =
      some ((String.mk (List.replicate c ' ') ++ "↑") ++ "") := by
    rw [show headerAux 0 [(⟨(c : Int), [], 0, [⟨0, 0⟩], []⟩ : Annot)] =
        Option.bind (spacesOpt ((c : Int) - 0)) (fun sp => some ((sp ++ "↑") ++ "")) from rfl,
      hsp]
    rfl
  have h1 : stringOf [mkAnnot (c : Int) []] =
      Option.bind (headerAux 0 [(⟨(c : Int), [], 0, [⟨0, 0⟩], []⟩ : Annot)])
        (fun h => some ((h ++ "\n") ++ "└─ \n")) := rfl
  rw [h1, hheader]
  show some ((((String.mk (List.replicate c ' ') ++ "↑") ++ "") ++ "\n") ++ "└─ \n") = _
  simp only [mk_append]
  congr 1
  simp


/-!
Lemmas for the placement pass as a whole.
-/

theorem setRowGo_rights_shapes :
    ∀ (fuel row : Nat) (a : Annot) (rights : List Annot),
    nbShapes (setRowGo fuel row a rights).2 = nbShapes rights := by
  intro fuel
  induction fuel with
  | zero => intro row a rights; rfl
  | succ m ih =>
    intro row a rights
    rw [setRowGo_succ]
    generalize hr1 : (if 0 < row then setSpace (row - 1) a rights else rights) = rights1
    have h1 : nbShapes rights1 = nbShapes rights := by
      rw [← hr1]
      split_ifs
      · rw [nbShapes_setSpace]
      · rfl
    cases hret : (checkLinesAndSetSpaces row a rights1).1 with
    | true =>
      rw [if_pos rfl]
      exact (checkLines_shapes row a rights1).trans h1
    | false =>
      rw [if_neg (by simp)]
      exact (ih (row + 1) _ _).trans ((checkLines_shapes row a rights1).trans h1)

theorem setRowGo_fst_Col :
    ∀ (fuel row : Nat) (a : Annot) (rights : List Annot),
    (setRowGo fuel row a rights).1.Col = a.Col := by
  intro fuel
  induction fuel with
  | zero => intro row a rights; rfl
  | succ m ih =>
    intro row a rights
    rw [setRowGo_succ]
    generalize hr1 : (if 0 < row then setSpace (row - 1) a rights else rights) = rights1
    cases hret : (checkLinesAndSetSpaces row a rights1).1 with
    | true =>
      rw [if_pos rfl]
      rw [show ((checkLinesAndSetSpaces row a rights1).2.1,
          (checkLinesAndSetSpaces row a rights1).2.2).1 =
          (checkLinesAndSetSpaces row a rights1).2.1 from rfl]
      rw [checkLines_true row a rights1 hret]
    | false =>
      rw [if_neg (by simp)]
      rw [ih (row + 1) _ _, checkLines_false row a rights1 hret]

theorem setRow_rights_shapes (a : Annot) (rights : List Annot) :
    nbShapes (setRow a rights).2 = nbShapes rights :=
  setRowGo_rights_shapes _ 0 a rights

theorem setRow_fst_Col (a : Annot) (rights : List Annot) :
    (setRow a rights).1.Col = a.Col :=
  setRowGo_fst_Col _ 0 a rights

theorem placeAll_length : ∀ (l : List Annot), (placeAll l).length = l.length := by
  intro l
  induction l with
  | nil => rfl
  | cons a rest ih =>
    cases rest with
    | nil => rfl
    | cons b t =>
      show ((setRow a (placeAll (b :: t))).1 :: (setRow a (placeAll (b :: t))).2).length = _
      rw [List.length_cons, List.length_cons,
        nbShapes_length _ _ (setRow_rights_shapes a (placeAll (b :: t))), ih]

theorem placeAll_cols : ∀ (l : List Annot),
    (placeAll l).map Annot.Col = l.map Annot.Col := by
  intro l
  induction l with
  | nil => rfl
  | cons a rest ih =>
    cases rest with
    | nil => rfl
    | cons b t =>
      show ((setRow a (placeAll (b :: t))).1 :: (setRow a (placeAll (b :: t))).2).map Annot.Col = _
      rw [List.map_cons, List.map_cons, setRow_fst_Col,
        nbShapes_cols _ _ (setRow_rights_shapes a (placeAll (b :: t))), ih]

theorem placeAll_getLast_row : ∀ (l : List Annot),
    (placeAll l).getLast?.map Annot.row = l.getLast?.map Annot.row := by
  intro l
  induction l with
  | nil => rfl
  | cons a rest ih =>
    cases rest with
    | nil => rfl
    | cons b t =>
      show ((setRow a (placeAll (b :: t))).1 ::
        (setRow a (placeAll (b :: t))).2).getLast?.map Annot.row = _
      have hlen : (setRow a (placeAll (b :: t))).2.length = (b :: t).length := by
        rw [nbShapes_length _ _ (setRow_rights_shapes a (placeAll (b :: t))), placeAll_length]
      obtain ⟨c, cs, hc⟩ : ∃ c cs, (setRow a (placeAll (b :: t))).2 = c :: cs := by
        cases hx : (setRow a (placeAll (b :: t))).2 with
        | nil => rw [hx] at hlen; simp at hlen
        | cons c cs => exact ⟨c, cs, rfl⟩
      rw [hc, List.getLast?_cons_cons, ← List.getLast?_map, ← hc,
        nbShapes_rows _ _ (setRow_rights_shapes a (placeAll (b :: t))),
        List.getLast?_map, ih, List.getLast?_cons_cons]

theorem initAnnot_Col (a : Annot) : (initAnnot a).Col = a.Col := by
  unfold initAnnot
  split_ifs <;> rfl

theorem initAnnot_row (a : Annot) : (initAnnot a).row = a.row := by
  unfold initAnnot
  split_ifs <;> rfl

theorem compactAux_mem :
    ∀ (l : List Annot) (prev x : Annot), x ∈ compactAux prev l → x ∈ l := by
  intro l
  induction l with
  | nil => intro prev x h; simp [compactAux] at h
  | cons b t ih =>
    intro prev x h
    simp only [compactAux] at h
    split_ifs at h with hb
    · exact List.mem_cons_of_mem b (ih prev x h)
    · rcases List.mem_cons.mp h with he | hm
      · exact he ▸ List.mem_cons_self b t
      · exact List.mem_cons_of_mem b (ih b x hm)

theorem compactFunc_mem (l : List Annot) (x : Annot) (h : x ∈ compactFunc l) : x ∈ l := by
  cases l with
  | nil => simp [compactFunc] at h
  | cons a t =>
    simp only [compactFunc] at h
    rcases List.mem_cons.mp h with he | hm
    · exact he ▸ List.mem_cons_self a t
    · exact List.mem_cons_of_mem a (compactAux_mem t a x hm)

theorem sortAnnots_mem (l : List Annot) (x : Annot) (h : x ∈ sortAnnots l) : x ∈ l :=
  (List.perm_insertionSort colLe l).mem_iff.mp h

theorem sortAnnots_sorted (l : List Annot) : List.Sorted colLe (sortAnnots l) :=
  List.sorted_insertionSort colLe l

theorem sorted_le_getLast :
    ∀ (cs : List Int), List.Sorted (· ≤ ·) cs →
    ∀ z ∈ cs, ∀ w, cs.getLast? = some w → z ≤ w := by
  intro cs
  induction cs with
  | nil => intro _ z hz; simp at hz
  | cons c t ih =>
    intro hs z hz w hw
    cases t with
    | nil =>
      have hzc : z = c := by simpa using hz
      have hwc : c = w := by simpa using hw
      rw [hzc, hwc]
    | cons d u =>
      rw [List.getLast?_cons_cons] at hw
      rcases List.pairwise_cons.mp hs with ⟨hcrel, hs2⟩
      rcases List.mem_cons.mp hz with he | hm
      · exact he ▸ hcrel w (List.mem_of_mem_getLast? hw)
      · exact ih hs2 z hm w hw

/-- C7.  For every nonempty caller-supplied input, the final state of the
render pass assigns row 0 to the last (rightmost, by the ascending-column
sort) annotation: its row is never touched by the placement loop, and
every retained annotation's column is at most its column. -/
theorem claim7_rightmost_row_zero (l : List (Int × List String)) (h : l ≠ []) :
    ∃ last, ((Write (l.map fun p => mkAnnot p.1 p.2)).1).getLast? = some last ∧
      last.row = 0 ∧
      ∀ x ∈ (Write (l.map fun p => mkAnnot p.1 p.2)).1, x.Col ≤ last.Col := by
  obtain ⟨p0, l0, hl⟩ := List.exists_cons_of_ne_nil h
  subst hl
  rw [show (Write ((p0 :: l0).map fun p => mkAnnot p.1 p.2)).1 =
      placeAll ((sortAnnots (compactFunc
        ((p0 :: l0).map fun p => mkAnnot p.1 p.2))).map initAnnot) from rfl]
  set S := sortAnnots (compactFunc ((p0 :: l0).map fun p => mkAnnot p.1 p.2)) with hS
  set P := placeAll (S.map initAnnot) with hP
  have hrow0 : ∀ x ∈ S, x.row = 0 := by
    intro x hx
    have h1 := sortAnnots_mem _ x hx
    have h2 := compactFunc_mem _ x h1
    rw [List.mem_map] at h2
    obtain ⟨p, _, hp⟩ := h2
    rw [← hp]
    rfl
  have hsorted : List.Sorted colLe S := sortAnnots_sorted _
  have hSlen : S.length = (compactFunc ((p0 :: l0).map fun p => mkAnnot p.1 p.2)).length :=
    (List.perm_insertionSort colLe _).length_eq
  have hSne : S ≠ [] := by
    intro he
    rw [he, show compactFunc ((p0 :: l0).map fun p => mkAnnot p.1 p.2) =
      mkAnnot p0.1 p0.2 :: compactAux (mkAnnot p0.1 p0.2)
        (l0.map fun p => mkAnnot p.1 p.2) from rfl] at hSlen
    simp at hSlen
  have hPlen : P.length = S.length := by
    rw [hP, placeAll_length, List.length_map]
  have hPne : P ≠ [] := by
    intro he
    rw [he] at hPlen
    exact hSne (List.length_eq_zero.mp hPlen.symm)
  obtain ⟨last, hlast⟩ : ∃ y, P.getLast? = some y := by
    cases hx : P.getLast? with
    | none => exact absurd (List.getLast?_eq_none_iff.mp hx) hPne
    | some y => exact ⟨y, rfl⟩
  have hmap : P.map Annot.Col = S.map Annot.Col := by
    rw [hP, placeAll_cols, List.map_map,
      show Annot.Col ∘ initAnnot = fun a => a.Col from funext fun a => initAnnot_Col a]
  refine ⟨last, hlast, ?_, ?_⟩
  · obtain ⟨s0, hs0⟩ : ∃ y, S.getLast? = some y := by
      cases hx : S.getLast? with
      | none => exact absurd (List.getLast?_eq_none_iff.mp hx) hSne
      | some y => exact ⟨y, rfl⟩
    have h3 := placeAll_getLast_row (S.map initAnnot)
    rw [← hP, hlast, List.getLast?_map, hs0] at h3
    have h4 : last.row = (initAnnot s0).row := by
      simpa using h3
    rw [h4, initAnnot_row]
    exact hrow0 s0 (List.mem_of_mem_getLast? hs0)
  · intro x hx
    have hx2 : x.Col ∈ S.map Annot.Col := by
      rw [← hmap]
      exact List.mem_map_of_mem Annot.Col hx
    have hlastc : (S.map Annot.Col).getLast? = some last.Col := by
      calc (S.map Annot.Col).getLast?
          = (P.map Annot.Col).getLast? := by rw [hmap]
        _ = P.getLast?.map Annot.Col := List.getLast?_map _ _
        _ = some last.Col := by rw [hlast]; rfl
    have hsortedInt : List.Sorted (· ≤ ·) (S.map Annot.Col) :=
      List.pairwise_map.mpr hsorted
    exact sorted_le_getLast _ hsortedInt x.Col hx2 last.Col hlastc

/-- C7, witness: two empty annotations at columns 0 and 2 — the final
states end with the column-2 annotation at row 0, and both columns are
at most 2. -/
theorem claim7_rightmost_row_zero_w :
    ∃ last, ((Write ([((0 : Int), ([] : List String)), ((2 : Int), ([] : List String))].map
        fun p => mkAnnot p.1 p.2)).1).getLast? = some last ∧
      last.row = 0 ∧
      ∀ x ∈ (Write ([((0 : Int), ([] : List String)), ((2 : Int), ([] : List String))].map
        fun p => mkAnnot p.1 p.2)).1, x.Col ≤ last.Col :=
  claim7_rightmost_row_zero [((0 : Int), ([] : List String)), ((2 : Int), ([] : List String))]
    (by decide)

/-!
Lemmas for permutation invariance.
-/

theorem compactAux_of_pairwise :
    ∀ (l : List Annot) (prev : Annot), (∀ b ∈ l, b.Col ≠ prev.Col) →
    l.Pairwise (fun x y => x.Col ≠ y.Col) → compactAux prev l = l := by
  intro l
  induction l with
  | nil => intro prev _ _; rfl
  | cons b t ih =>
    intro prev hb hp
    rcases List.pairwise_cons.mp hp with ⟨hbt, hp2⟩
    simp only [compactAux]
    rw [if_neg (hb b (by simp))]
    rw [ih b (fun y hy => (hbt y hy).symm) hp2]

theorem compactFunc_of_pairwise (l : List Annot)
    (h : l.Pairwise (fun x y => x.Col ≠ y.Col)) : compactFunc l = l := by
  cases l with
  | nil => rfl
  | cons a t =>
    rcases List.pairwise_cons.mp h with ⟨hat, h2⟩
    simp only [compactFunc]
    rw [compactAux_of_pairwise t a (fun y hy => (hat y hy).symm) h2]

theorem sortAnnots_eq_of_perm (l1 l2 : List Annot) (hp : l1.Perm l2)
    (hd : l1.Pairwise (fun x y => x.Col ≠ y.Col)) :
    sortAnnots l1 = sortAnnots l2 := by
  have p1 := List.perm_insertionSort colLe l1
  have p2 := List.perm_insertionSort colLe l2
  have s1 : List.Sorted colLe (sortAnnots l1) := sortAnnots_sorted l1
  have s2 : List.Sorted colLe (sortAnnots l2) := sortAnnots_sorted l2
  have hd2 : l2.Pairwise (fun x y => x.Col ≠ y.Col) :=
    (List.Perm.pairwise_iff (fun {_ _} h => Ne.symm h) hp).mp hd
  have hd1s : (sortAnnots l1).Pairwise (fun x y => x.Col ≠ y.Col) :=
    (List.Perm.pairwise_iff (fun {_ _} h => Ne.symm h) p1).mpr hd
  have hd2s : (sortAnnots l2).Pairwise (fun x y => x.Col ≠ y.Col) :=
    (List.Perm.pairwise_iff (fun {_ _} h => Ne.symm h) p2).mpr hd2
  have st1 : List.Sorted colLt (sortAnnots l1) :=
    (List.Pairwise.and s1 hd1s).imp fun hxy => lt_of_le_of_ne hxy.1 hxy.2
  have st2 : List.Sorted colLt (sortAnnots l2) :=
    (List.Pairwise.and s2 hd2s).imp fun hxy => lt_of_le_of_ne hxy.1 hxy.2
  have pp : (sortAnnots l1).Perm (sortAnnots l2) := p1.trans (hp.trans p2.symm)
  exact List.eq_of_perm_of_sorted pp st1 st2

/-- C8.  Rendering is invariant under permutation of the caller-supplied
list when all columns are distinct: the adjacent-duplicate compaction is
a no-op on a duplicate-free list, the sort produces the same sorted list
for any permutation, and everything downstream is a function of the
sorted list. -/
theorem claim8_perm_invariance (l1 l2 : List (Int × List String)) (hp : l1.Perm l2)
    (hd : l1.Pairwise (fun p q => p.1 ≠ q.1)) :
    (Write (l1.map fun p => mkAnnot p.1 p.2)).2 =
      (Write (l2.map fun p => mkAnnot p.1 p.2)).2 := by
  have hpA : (l1.map fun p => mkAnnot p.1 p.2).Perm (l2.map fun p => mkAnnot p.1 p.2) :=
    hp.map _
  have hdA1 : (l1.map fun p => mkAnnot p.1 p.2).Pairwise (fun x y => x.Col ≠ y.Col) :=
    List.pairwise_map.mpr hd
  have hdA2 : (l2.map fun p => mkAnnot p.1 p.2).Pairwise (fun x y => x.Col ≠ y.Col) :=
    (List.Perm.pairwise_iff (fun {_ _} h => Ne.symm h) hpA).mp hdA1
  unfold Write
  dsimp only
  rw [compactFunc_of_pairwise _ hdA1, compactFunc_of_pairwise _ hdA2]
  by_cases he : (l1.map fun p => mkAnnot p.1 p.2).isEmpty
  · have he1 : (l1.map fun p => mkAnnot p.1 p.2) = [] := List.isEmpty_iff.mp he
    have he2 : (l2.map fun p => mkAnnot p.1 p.2) = [] := by
      have := hpA.length_eq
      rw [he1] at this
      exact List.length_eq_zero.mp this.symm
    rw [if_pos he, if_pos (by rw [he2]; rfl)]
  · have he2 : ¬(l2.map fun p => mkAnnot p.1 p.2).isEmpty = true := by
      intro hx
      have he2 : (l2.map fun p => mkAnnot p.1 p.2) = [] := List.isEmpty_iff.mp hx
      have := hpA.length_eq
      rw [he2] at this
      exact he (by rw [List.isEmpty_iff, ← List.length_eq_zero]; exact this)
    rw [if_neg he, if_neg he2, sortAnnots_eq_of_perm _ _ hpA hdA1]

/-- C8, witness: swapping two annotations with distinct columns renders
identically. -/
theorem claim8_perm_invariance_w :
    (Write ([((0 : Int), ["a"]), ((3 : Int), ["b"])].map fun p => mkAnnot p.1 p.2)).2 =
      (Write ([((3 : Int), ["b"]), ((0 : Int), ["a"])].map fun p => mkAnnot p.1 p.2)).2 :=
  claim8_perm_invariance [((0 : Int), ["a"]), ((3 : Int), ["b"])]
    [((3 : Int), ["b"]), ((0 : Int), ["a"])] (by decide) (by decide)
